import Mathlib

/-!
Verification development for the vmtest QEMU console-interaction engine.

The Go sources (qemu.go and its sibling revision) are embedded shallowly:
console bytes are `List Char` (the console traffic is ASCII), the shared
line buffer is an explicit structure, the background pump and the blocking
matcher become pure functions over explicit schedules of read results and
data-arrival events.  Machine integers play no role in the modelled code.
-/

namespace Vmtest

/-- The newline byte used by the matcher to split candidate fragments. -/
def nl : Char := '\n'

/-- The escape-introducer byte 0x1b tested by the pump before filtering. -/
def esc : Char := '\x1b'

/-- Embeds Go `bytes.HasPrefix`: `hasPrefixB l p` is true when `p` is a
prefix of `l`. -/
def hasPrefixB : List Char → List Char → Bool
  | _, [] => true
  | [], _ :: _ => false
  | a :: as, b :: bs => a == b && hasPrefixB as bs

/-- Embeds Go `bytes.Contains`: true when the needle occurs contiguously in
the haystack (an empty needle always occurs). -/
def containsB : List Char → List Char → Bool
  | [], needle => needle.isEmpty
  | l@(_ :: rest), needle => hasPrefixB l needle || containsB rest needle

/-- Embeds Go `bytes.IndexByte`: index of the first occurrence of `c`,
`none` when absent. -/
def indexOfByte (c : Char) : List Char → Option Nat
  | [] => none
  | x :: xs => if x == c then some 0 else (indexOfByte c xs).map (· + 1)

/-- Embeds Go `bytes.LastIndexByte`: index of the last occurrence of `c`,
`none` when absent. -/
def lastIndexOfByte (c : Char) : List Char → Option Nat
  | [] => none
  | x :: xs =>
    match lastIndexOfByte c xs with
    | some i => some (i + 1)
    | none => if x == c then some 0 else none

/-! ## The escape-sequence filter and the stream pump (qemu.go `consolePump`) -/

/-- `asciiSeqMaxLength` from qemu.go: the window, measured from the end of a
chunk, within which a trailing escape introducer is treated as a possibly
incomplete sequence. -/
def asciiSeqMaxLength : Nat := 30

/-- Recognizer for one alternative of qemu.go's `ansiRe`
(`ESC ( [ [0-9;]* m | c | [?7l | [2J )`) immediately after the escape byte:
returns the remainder of the input after the sequence when one is present.
The alternatives are tried in the pattern's order; since the character class
`[0-9;]` excludes `m`, maximal munch coincides with the regexp engine's
leftmost-first semantics. -/
def ansiSeqAfterEsc (s : List Char) : Option (List Char) :=
  match s with
  | '[' :: t =>
    let digs := t.takeWhile (fun c => c.isDigit || c == ';')
    match t.drop digs.length with
    | 'm' :: r => some r
    | _ =>
      match s with
      | '[' :: '?' :: '7' :: 'l' :: r => some r
      | '[' :: '2' :: 'J' :: r => some r
      | _ => none
  | 'c' :: r => some r
  | _ => none

/-- Fuelled scan embedding `ansiRe.ReplaceAll(toPrint, [])`: every match of
the escape-sequence pattern is deleted, all other bytes are kept in order.
Each step consumes at least one byte, so fuel `s.length` is always enough. -/
def ansiReplaceAllF : Nat → List Char → List Char
  | 0, s => s
  | fuel + 1, s =>
    match s with
    | [] => []
    | c :: t =>
      if c == esc then
        match ansiSeqAfterEsc t with
        | some r => ansiReplaceAllF fuel r
        | none => c :: ansiReplaceAllF fuel t
      else c :: ansiReplaceAllF fuel t

/-- Embeds `ansiRe.ReplaceAll(toPrint, []byte{})` from qemu.go. -/
def ansiReplaceAll (s : List Char) : List Char :=
  ansiReplaceAllF s.length s

/-- One data-processing step of `consolePump` (qemu.go lines 230-250):
given the carried-over tail of the previous iteration and the bytes read,
returns the bytes delivered downstream and the new carry.  The carry is
non-empty exactly when, after filtering, an escape introducer remains within
`asciiSeqMaxLength` bytes of the end of the chunk. -/
def pumpIteration (carry readBytes : List Char) : List Char × List Char :=
  let toPrint := carry ++ readBytes
  if containsB toPrint [esc] then
    let filtered := ansiReplaceAll toPrint
    match lastIndexOfByte esc filtered with
    | some i =>
      if filtered.length - i < asciiSeqMaxLength then
        (filtered.take i, filtered.drop i)
      else (filtered, [])
    | none => (filtered, [])
  else (toPrint, [])

/-- The shared state guarded by `consolePumpMutex` in qemu.go: the
accumulated console bytes, the "data arrived since last drain" flag and the
"stream ended" flag. -/
structure PumpShared where
  consoleData : List Char
  consoleDataArrived : Bool
  consoleDataEOF : Bool
deriving DecidableEq, Repr

/-- Result of one `q.console.Read` call as seen by the pump loop. -/
inductive ReadErr
  | eofE
  | otherE
deriving DecidableEq, Repr

/-- A read event delivered to the pump: the bytes read (possibly none) and
the error returned alongside them, if any. -/
structure ReadEvent where
  bytes : List Char
  err : Option ReadErr
deriving DecidableEq, Repr

/-- Whether the pump loop has returned, and the shared state it left. -/
inductive PumpResult
  | terminated (sh : PumpShared)
  | running (carry : List Char) (sh : PumpShared)
deriving DecidableEq, Repr

/-- Embeds the `consolePump` loop of qemu.go over an explicit schedule of
read results.  When bytes were read they are filtered and appended to the
shared buffer with the arrived flag set; a read error then terminates the
loop, setting the ended flag only when the error is end-of-file (any other
error is logged and the loop exits with the flag untouched). -/
def consolePumpRun : List Char → PumpShared → List ReadEvent → PumpResult
  | carry, sh, [] => .running carry sh
  | carry, sh, ev :: rest =>
    let step :=
      if ev.bytes.isEmpty then (carry, sh)
      else
        let pr := pumpIteration carry ev.bytes
        (pr.2, { sh with consoleData := sh.consoleData ++ pr.1,
                         consoleDataArrived := true })
    match ev.err with
    | some .eofE => .terminated { step.2 with consoleDataEOF := true }
    | some .otherE => .terminated step.2
    | none => consolePumpRun step.1 step.2 rest

/-- The error delivered by the first read event that carries one; later
events are never reached by the pump loop. -/
def firstReadErr : List ReadEvent → Option ReadErr
  | [] => none
  | ev :: rest =>
    match ev.err with
    | some e => some e
    | none => firstReadErr rest

/-! ## The expectation matcher (qemu.go `ConsoleProcess`) -/

/-- Result of the inner line loop of `ConsoleProcess`: either some candidate
fragment matched, leaving the bytes the loop had not consumed, or no
fragment matched and the terminator-less tail is kept in the local buffer. -/
inductive LinesResult (σ : Type)
  | matched (s : σ) (leftover : List Char)
  | cont (s : σ) (tail : List Char)
deriving DecidableEq, Repr

/-- Fuelled embedding of the inner loop of `ConsoleProcess` (qemu.go lines
344-376): repeatedly locate the first newline, offer the line (terminator
included) — or, when no newline remains, the whole terminator-less tail —
to the processor, advance past the line only when it was terminated, and
stop on the first match or after the terminator-less fragment.  Each
recursive step removes at least one byte, so fuel `buf.length + 1` always
suffices; the fuel-exhausted equation is unreachable from `processLines`. -/
def processLinesF {σ : Type} (proc : σ → List Char → σ × Bool) :
    Nat → σ → List Char → LinesResult σ
  | 0, s, buf => .cont s buf
  | fuel + 1, s, buf =>
    match indexOfByte nl buf with
    | none =>
      let r := proc s buf
      if r.2 then .matched r.1 buf else .cont r.1 buf
    | some i =>
      let r := proc s (buf.take (i + 1))
      if r.2 then .matched r.1 (buf.drop (i + 1))
      else processLinesF proc fuel r.1 (buf.drop (i + 1))

/-- The inner line loop of `ConsoleProcess` on a drained buffer. -/
def processLines {σ : Type} (proc : σ → List Char → σ × Bool)
    (s : σ) (buf : List Char) : LinesResult σ :=
  processLinesF proc (buf.length + 1) s buf

/-- The candidate fragments of a buffer, in order: every newline-terminated
line (terminator kept), followed by the terminator-less remainder — which
the loop offers to the processor even when it is empty.  Fuelled like
`processLinesF`. -/
def fragmentsF : Nat → List Char → List (List Char)
  | 0, buf => [buf]
  | fuel + 1, buf =>
    match indexOfByte nl buf with
    | none => [buf]
    | some i => buf.take (i + 1) :: fragmentsF fuel (buf.drop (i + 1))

/-- The candidate fragments of a drained buffer, in production order. -/
def fragments (buf : List Char) : List (List Char) :=
  fragmentsF (buf.length + 1) buf

/-- Reference formulation of the inner loop directly over the fragment
list: the processor is offered the fragments strictly in order; a match on
a newline-terminated fragment leaves the concatenation of the remaining
fragments, a match on the final terminator-less fragment leaves that very
fragment (its bytes are not consumed). -/
def runFragments {σ : Type} (proc : σ → List Char → σ × Bool) :
    σ → List (List Char) → LinesResult σ
  | s, [] => .cont s []
  | s, [fr] =>
    let r := proc s fr
    if r.2 then .matched r.1 fr else .cont r.1 fr
  | s, fr :: frs =>
    let r := proc s fr
    if r.2 then .matched r.1 frs.flatten else runFragments proc r.1 frs

/-- The pump activity surrounding one drain of the matcher loop:
`before` holds the chunks the pump appended before the drain, `eofB`
whether it set the ended flag by then, `during` the chunks it appends
between the drain and the end of the iteration. -/
structure PumpIter where
  before : List (List Char)
  eofB : Bool
  during : List (List Char)

/-- Appends pump chunks to the shared state exactly as the locked section
of `consolePump` does: each append extends `consoleData` and raises the
arrived flag. -/
def applyAppends (sh : PumpShared) (cs : List (List Char)) : PumpShared :=
  cs.foldl
    (fun a c => { a with consoleData := a.consoleData ++ c,
                         consoleDataArrived := true }) sh

/-- The shared state the matcher observes at its drain, after the pump
activity of the iteration's `before` phase. -/
def applyIter (sh : PumpShared) (it : PumpIter) : PumpShared :=
  let sh0 := applyAppends sh it.before
  if it.eofB then { sh0 with consoleDataEOF := true } else sh0

/-- Outcome of a `ConsoleProcess` call: a match (with the processor state
and the shared state after the unconsumed remainder was prepended back), an
`io.EOF` return, or the schedule running out while the call still polls. -/
inductive ProcOutcome (σ : Type)
  | success (s : σ) (sh : PumpShared)
  | eofErr (s : σ) (sh : PumpShared)
  | outOfSched (s : σ) (buf : List Char) (sh : PumpShared)
deriving DecidableEq, Repr

/-- Embeds the outer loop of `ConsoleProcess` (qemu.go lines 332-385) over
an explicit schedule of pump activity.  Each iteration drains the shared
buffer into the local one and clears the data/arrived fields; if data had
arrived the line loop runs and, on a match, the unconsumed remainder is
prepended in front of whatever the pump appended meanwhile and the arrived
flag is raised again; with no new data the call returns `io.EOF` when the
ended flag is set and otherwise sleeps and retries. -/
def consoleProcessRun {σ : Type} (proc : σ → List Char → σ × Bool) :
    σ → List Char → PumpShared → List PumpIter → ProcOutcome σ
  | s, buf, sh, [] => .outOfSched s buf sh
  | s, buf, sh, it :: rest =>
    let sh0 := applyIter sh it
    let buf1 := buf ++ sh0.consoleData
    let sh2 := applyAppends ⟨[], false, sh0.consoleDataEOF⟩ it.during
    if sh0.consoleDataArrived then
      match processLinesF proc (buf1.length + 1) s buf1 with
      | .matched s2 leftover =>
        .success s2 { sh2 with consoleData := leftover ++ sh2.consoleData,
                               consoleDataArrived := true }
      | .cont s2 tail => consoleProcessRun proc s2 tail sh2 rest
    else if sh0.consoleDataEOF then .eofErr s sh2
    else consoleProcessRun proc s buf1 sh2 rest

/-- The predicate built by `ConsoleExpect` (qemu.go lines 302-308):
`bytes.Contains(data, match)`, stateless. -/
def consoleExpectProc (target : List Char) : Unit → List Char → Unit × Bool :=
  fun _ data => ((), containsB data target)

/-- A `ConsoleExpect` call: local buffer starts empty, processor state is
trivial. -/
def consoleExpectRun (target : List Char) (sh : PumpShared)
    (sched : List PumpIter) : ProcOutcome Unit :=
  consoleProcessRun (consoleExpectProc target) () [] sh sched

/-- The predicate built by `ConsoleExpectRE` (qemu.go lines 312-323),
parameterized by the regexp library call: `fas data` stands for
`re.FindAllSubmatch(data, -1)`, each match listed as the whole match
followed by its capture groups.  On a match the closure appends, for every
match in order, only entry 1 — the first capture group — to the
accumulated results. -/
def consoleExpectREProc (fas : List Char → List (List (List Char)))
    (acc : List (List Char)) (data : List Char) : List (List Char) × Bool :=
  match fas data with
  | [] => (acc, false)
  | m => (acc ++ m.map (fun sm => sm.getD 1 []), true)

/-- A `ConsoleExpectRE` call: accumulated matches start empty. -/
def consoleExpectRERun (fas : List Char → List (List (List Char)))
    (sh : PumpShared) (sched : List PumpIter) :
    ProcOutcome (List (List Char)) :=
  consoleProcessRun (consoleExpectREProc fas) [] [] sh sched

/-- The value `ConsoleExpectRE` hands back to its caller: the accumulated
matches on success, `none` when `ConsoleProcess` returned an error (the
`outOfSched` model artifact also maps to `none`). -/
def consoleExpectREResult {σ : Type} : ProcOutcome σ → Option σ
  | .success s _ => some s
  | _ => none

/-! ## A concrete regular-expression model

Modelled from the spec: the repository calls Go's `regexp` package (not
part of this repository) through `re.FindAllSubmatch(data, -1)`.  The
patterns that decide the claims are alternations-free sequences of literal
runs and single captured digit runs `(\d+)`, for which Go's leftmost-first
semantics coincide with maximal munch. -/

/-- One part of a modelled pattern: a literal byte run, or the captured
digit run `(\d+)`. -/
inductive RePart
  | lit (cs : List Char)
  | digitsGroup
deriving DecidableEq, Repr

/-- A modelled pattern is a sequence of parts. -/
def RePattern : Type := List RePart

/-- Modelled from the spec: matching a pattern at the head of the input —
returns the capture groups in order and the remaining input. -/
def reMatchHere : List RePart → List Char → Option (List (List Char) × List Char)
  | [], s => some ([], s)
  | .lit l :: ps, s =>
    if l.isPrefixOf s then reMatchHere ps (s.drop l.length) else none
  | .digitsGroup :: ps, s =>
    let ds := s.takeWhile Char.isDigit
    if ds.isEmpty then none
    else (reMatchHere ps (s.drop ds.length)).map (fun p => (ds :: p.1, p.2))

/-- Modelled from the spec: fuelled scan behind `FindAllSubmatch` — find
successive non-overlapping leftmost matches; each reported match is the
whole matched run followed by its capture groups.  Every step consumes at
least one byte, so fuel `s.length + 1` always suffices. -/
def reFindAllF (p : List RePart) : Nat → List Char → List (List (List Char))
  | 0, _ => []
  | fuel + 1, s =>
    match reMatchHere p s with
    | some (caps, rest) =>
      let consumed := s.length - rest.length
      (s.take consumed :: caps) ::
        (if consumed == 0 then
          match rest with
          | [] => []
          | _ :: t => reFindAllF p fuel t
        else reFindAllF p fuel rest)
    | none =>
      match s with
      | [] => []
      | _ :: t => reFindAllF p fuel t

/-- Modelled from the spec: `re.FindAllSubmatch(data, -1)` for a modelled
pattern. -/
def reFindAll (p : List RePart) (s : List Char) : List (List (List Char)) :=
  reFindAllF p (s.length + 1) s

/-- The pattern `exit_code=(\d+)` of the spec's worked example. -/
def exitCodeRe : List RePart := [.lit "exit_code=".data, .digitsGroup]

/-- The two-group pattern `a(\d+)b(\d+)` used to probe multi-group
extraction. -/
def twoGroupRe : List RePart :=
  [.lit "a".data, .digitsGroup, .lit "b".data, .digitsGroup]

/-! ## Session teardown (sibling revision `Kill` / `Shutdown` / `wait`) -/

/-- One observable side effect of the teardown paths. -/
inductive LifecycleEffect
  | monitorWrite (directive : String)
  | logError
  | waitForExit
  | cancelContext
  | closeConsole
  | closeConsoleListener
  | closeMonitor
  | closeMonitorListener
  | removeTempDir
deriving DecidableEq, Repr

/-- Whether an effect is a write on the monitor channel. -/
def isMonitorWrite : LifecycleEffect → Bool
  | .monitorWrite _ => true
  | _ => false

/-- Whether an effect is a log entry. -/
def isLogError : LifecycleEffect → Bool
  | .logError => true
  | _ => false

/-- Effect trace of `(*Qemu).wait` (sibling revision lines 341-354): block
on the process-exit signal (logging a non-nil exit error), cancel the
deadline context, close the console connection, the console listener, the
monitor connection and the monitor listener, then remove the temporary
directory (logging a failure). -/
def waitTrace (exitErr removeErr : Bool) : List LifecycleEffect :=
  [.waitForExit] ++ (if exitErr then [.logError] else []) ++
    [.cancelContext, .closeConsole, .closeConsoleListener, .closeMonitor,
      .closeMonitorListener, .removeTempDir] ++
    (if removeErr then [.logError] else [])

/-- Effect trace of `(*Qemu).Kill`: write the directive `"quit\n"` to the
monitor (logging a write failure), then run `wait`. -/
def killTrace (monErr exitErr removeErr : Bool) : List LifecycleEffect :=
  [.monitorWrite "quit\n"] ++ (if monErr then [.logError] else []) ++
    waitTrace exitErr removeErr

/-- Effect trace of `(*Qemu).Shutdown`: write the directive
`"system_powerdown\n"` to the monitor (logging a write failure), then run
`wait`. -/
def shutdownTrace (monErr exitErr removeErr : Bool) : List LifecycleEffect :=
  [.monitorWrite "system_powerdown\n"] ++
    (if monErr then [.logError] else []) ++ waitTrace exitErr removeErr

/-! ## Launch-time argument validation (qemu.go `NewQemu`) -/

/-- `OperatingSystem` from qemu.go. -/
inductive OperatingSystem
  | OS_OTHER
  | OS_LINUX
deriving DecidableEq, Repr

/-- The fields of `QemuOptions` from qemu.go (durations in seconds). -/
structure QemuOptions where
  Architecture : String
  OperatingSystem : OperatingSystem
  Params : List String
  Verbose : Bool
  Timeout : Nat
  Kernel : String
  InitRamFs : String
  Disks : List String
  Append : List String
  CdRom : String

/-- What `NewQemu` decides before any process is spawned: either an error
return (no process started), or the binary and command line handed to the
spawn. -/
inductive NewQemuOutcome
  | failure (msg : String)
  | spawn (binary : String) (cmdline : List String)
deriving DecidableEq, Repr

/-- `qemuDefaultTimeout` from qemu.go, in seconds. -/
def qemuDefaultTimeout : Nat := 30

/-- The per-disk arguments built by the loop over `opts.Disks`. -/
def disksArgs (ds : List String) : List String :=
  (ds.enum.map (fun pr =>
    ["-drive", "format=raw,if=none,id=hd" ++ toString pr.1 ++ ",file=" ++ pr.2,
      "-device", "scsi-hd,drive=hd" ++ toString pr.1])).flatten

/-- Embeds the pure argument-processing prefix of `NewQemu` (qemu.go lines
109-191), parameterized by the temporary directory the runtime allocated:
apply the timeout and architecture defaults, build the command line, and
reject `Append` without `Kernel` before reaching the spawn. -/
def NewQemuPlan (tempDir : String) (opts : QemuOptions) : NewQemuOutcome :=
  let _timeout := if opts.Timeout = 0 then qemuDefaultTimeout else opts.Timeout
  let arch := if opts.Architecture = "" then "x86_64" else opts.Architecture
  let monitorFile := tempDir ++ "/monitor.socket"
  let consoleFile := tempDir ++ "/console.socket"
  let qemuBinary := "qemu-system-" ++ arch
  let cmdline := ["-monitor", "unix:" ++ monitorFile,
    "-serial", "unix:" ++ consoleFile,
    "-no-reboot", "-nographic", "-display", "none"]
  let cmdline := if opts.Kernel ≠ "" then cmdline ++ ["-kernel", opts.Kernel]
    else cmdline
  let cmdline := if opts.InitRamFs ≠ "" then
    cmdline ++ ["-initrd", opts.InitRamFs] else cmdline
  if opts.Kernel = "" ∧ opts.Append ≠ [] then
    .failure "opts.Append only allowed with opts.Kernel option"
  else
    let kernelArgs := opts.Append ++
      (if opts.OperatingSystem = .OS_LINUX then
        ["console=ttyS0,115200", "ignore_loglevel"] else [])
    let cmdline := if kernelArgs ≠ [] then
      cmdline ++ ["-append", String.intercalate " " kernelArgs] else cmdline
    let cmdline := if opts.Params ≠ [] then cmdline ++ opts.Params else cmdline
    let cmdline := if opts.CdRom ≠ "" then
      cmdline ++ ["-boot", "d", "-cdrom", opts.CdRom] else cmdline
    let cmdline := if opts.Disks ≠ [] then
      cmdline ++ ["-device", "virtio-scsi-pci,id=scsi"] else cmdline
    let cmdline := cmdline ++ disksArgs opts.Disks
    .spawn qemuBinary cmdline

/-! ## Helper lemmas -/

lemma indexOfByte_lt (c : Char) :
    ∀ (l : List Char) (i : Nat), indexOfByte c l = some i → i < l.length := by
  intro l
  induction l with
  | nil => intro i h; simp [indexOfByte] at h
  | cons x xs ih =>
    intro i h
    simp only [indexOfByte] at h
    by_cases hx : x == c
    · rw [if_pos hx] at h
      cases h
      simp
    · rw [if_neg hx] at h
      cases hj : indexOfByte c xs with
      | none => rw [hj] at h; simp at h
      | some j =>
        rw [hj] at h
        simp at h
        have := ih j hj
        simp only [List.length_cons]
        omega

lemma indexOfByte_append_nl (c : List Char) (h : indexOfByte nl c = none) :
    indexOfByte nl (c ++ [nl]) = some c.length := by
  induction c with
  | nil => simp [indexOfByte]
  | cons x xs ih =>
    rw [List.cons_append]
    simp only [indexOfByte] at h ⊢
    by_cases hx : x == nl
    · rw [if_pos hx] at h; cases h
    · rw [if_neg hx] at h ⊢
      cases hj : indexOfByte nl xs with
      | none => rw [ih hj]; simp
      | some j => rw [hj] at h; simp at h

lemma applyAppends_consoleData :
    ∀ (cs : List (List Char)) (sh : PumpShared),
      (applyAppends sh cs).consoleData = sh.consoleData ++ cs.flatten := by
  intro cs
  induction cs with
  | nil => intro sh; simp [applyAppends]
  | cons c cs ih =>
    intro sh
    simp only [applyAppends, List.foldl] at ih ⊢
    rw [ih]
    simp

lemma applyAppends_eof :
    ∀ (cs : List (List Char)) (sh : PumpShared),
      (applyAppends sh cs).consoleDataEOF = sh.consoleDataEOF := by
  intro cs
  induction cs with
  | nil => intro sh; simp [applyAppends]
  | cons c cs ih =>
    intro sh
    simp only [applyAppends, List.foldl] at ih ⊢
    rw [ih]

lemma applyAppends_arrived :
    ∀ (cs : List (List Char)) (sh : PumpShared),
      (applyAppends sh cs).consoleDataArrived
        = (sh.consoleDataArrived || !cs.isEmpty) := by
  intro cs
  induction cs with
  | nil => intro sh; simp [applyAppends]
  | cons c cs ih =>
    intro sh
    simp only [applyAppends, List.foldl] at ih ⊢
    rw [ih]
    simp

lemma applyIter_consoleData (sh : PumpShared) (it : PumpIter) :
    (applyIter sh it).consoleData = sh.consoleData ++ it.before.flatten := by
  unfold applyIter
  by_cases h : it.eofB
  · rw [if_pos h]; exact applyAppends_consoleData it.before sh
  · rw [if_neg h]; exact applyAppends_consoleData it.before sh

lemma applyIter_eof (sh : PumpShared) (it : PumpIter) :
    (applyIter sh it).consoleDataEOF = (sh.consoleDataEOF || it.eofB) := by
  unfold applyIter
  by_cases h : it.eofB
  · rw [if_pos h, h]; simp
  · rw [if_neg h]
    rw [applyAppends_eof]
    simp only [Bool.or_eq_true] at h ⊢
    cases hb : it.eofB
    · simp
    · exact absurd hb h

lemma applyIter_arrived (sh : PumpShared) (it : PumpIter) :
    (applyIter sh it).consoleDataArrived
      = (sh.consoleDataArrived || !it.before.isEmpty) := by
  unfold applyIter
  by_cases h : it.eofB
  · rw [if_pos h]; exact applyAppends_arrived it.before sh
  · rw [if_neg h]; exact applyAppends_arrived it.before sh

lemma processLinesF_irrel {σ : Type} (proc : σ → List Char → σ × Bool) :
    ∀ (n f g : Nat) (s : σ) (buf : List Char),
      buf.length ≤ n → buf.length < f → buf.length < g →
      processLinesF proc f s buf = processLinesF proc g s buf := by
  intro n
  induction n with
  | zero =>
    intro f g s buf hn hf hg
    have hbuf : buf = [] := List.length_eq_zero.mp (Nat.le_zero.mp hn)
    subst hbuf
    cases f with
    | zero => omega
    | succ f =>
      cases g with
      | zero => omega
      | succ g => simp [processLinesF, indexOfByte]
  | succ n ih =>
    intro f g s buf hn hf hg
    cases f with
    | zero => omega
    | succ f =>
      cases g with
      | zero => omega
      | succ g =>
        simp only [processLinesF]
        cases hidx : indexOfByte nl buf with
        | none => rfl
        | some i =>
          have hi := indexOfByte_lt nl buf i hidx
          have hdrop : (buf.drop (i + 1)).length = buf.length - (i + 1) :=
            List.length_drop _ _
          by_cases hr : (proc s (buf.take (i + 1))).2
          · simp [hr]
          · simp only [hr, if_neg, Bool.false_eq_true, not_false_iff]
            apply ih f g
            · omega
            · omega
            · omega

lemma processLinesF_eq (proc : σ → List Char → σ × Bool) (f : Nat) (s : σ)
    (buf : List Char) (h : buf.length < f) :
    processLinesF proc f s buf = processLines proc s buf :=
  processLinesF_irrel proc buf.length f (buf.length + 1) s buf le_rfl h
    (Nat.lt_succ_self _)

lemma fragmentsF_irrel :
    ∀ (n f g : Nat) (buf : List Char),
      buf.length ≤ n → buf.length < f → buf.length < g →
      fragmentsF f buf = fragmentsF g buf := by
  intro n
  induction n with
  | zero =>
    intro f g buf hn hf hg
    have hbuf : buf = [] := List.length_eq_zero.mp (Nat.le_zero.mp hn)
    subst hbuf
    cases f with
    | zero => omega
    | succ f =>
      cases g with
      | zero => omega
      | succ g => simp [fragmentsF, indexOfByte]
  | succ n ih =>
    intro f g buf hn hf hg
    cases f with
    | zero => omega
    | succ f =>
      cases g with
      | zero => omega
      | succ g =>
        simp only [fragmentsF]
        cases hidx : indexOfByte nl buf with
        | none => rfl
        | some i =>
          have hi := indexOfByte_lt nl buf i hidx
          have hdrop : (buf.drop (i + 1)).length = buf.length - (i + 1) :=
            List.length_drop _ _
          simp [ih f g (buf.drop (i + 1)) (by omega) (by omega) (by omega)]

lemma fragments_none (buf : List Char) (h : indexOfByte nl buf = none) :
    fragments buf = [buf] := by
  unfold fragments
  simp [fragmentsF, h]

lemma fragments_some (buf : List Char) (i : Nat)
    (h : indexOfByte nl buf = some i) :
    fragments buf = buf.take (i + 1) :: fragments (buf.drop (i + 1)) := by
  have hi := indexOfByte_lt nl buf i h
  have hdrop : (buf.drop (i + 1)).length = buf.length - (i + 1) :=
    List.length_drop _ _
  have hrec := fragmentsF_irrel (buf.drop (i + 1)).length buf.length
    ((buf.drop (i + 1)).length + 1) (buf.drop (i + 1)) le_rfl (by omega)
    (Nat.lt_succ_self _)
  unfold fragments
  conv_lhs => rw [fragmentsF]
  simp [h, hrec]

lemma fragments_ne_nil (buf : List Char) : fragments buf ≠ [] := by
  cases hidx : indexOfByte nl buf with
  | none => rw [fragments_none buf hidx]; simp
  | some i => rw [fragments_some buf i hidx]; simp

lemma fragments_flatten :
    ∀ (n : Nat) (buf : List Char), buf.length ≤ n →
      (fragments buf).flatten = buf := by
  intro n
  induction n with
  | zero =>
    intro buf hn
    have hbuf : buf = [] := List.length_eq_zero.mp (Nat.le_zero.mp hn)
    subst hbuf
    rw [fragments_none [] (by simp [indexOfByte])]
    simp
  | succ n ih =>
    intro buf hn
    cases hidx : indexOfByte nl buf with
    | none => rw [fragments_none buf hidx]; simp
    | some i =>
      have hi := indexOfByte_lt nl buf i hidx
      have hdrop : (buf.drop (i + 1)).length = buf.length - (i + 1) :=
        List.length_drop _ _
      rw [fragments_some buf i hidx]
      simp only [List.flatten_cons]
      rw [ih (buf.drop (i + 1)) (by omega)]
      exact List.take_append_drop _ _

lemma processLines_eq_runFragments {σ : Type} (proc : σ → List Char → σ × Bool) :
    ∀ (n : Nat) (s : σ) (buf : List Char), buf.length ≤ n →
      processLines proc s buf = runFragments proc s (fragments buf) := by
  intro n
  induction n with
  | zero =>
    intro s buf hn
    have hbuf : buf = [] := List.length_eq_zero.mp (Nat.le_zero.mp hn)
    subst hbuf
    rw [fragments_none [] (by simp [indexOfByte])]
    simp [processLines, processLinesF, runFragments, indexOfByte]
  | succ n ih =>
    intro s buf hn
    cases hidx : indexOfByte nl buf with
    | none =>
      rw [fragments_none buf hidx]
      simp [processLines, processLinesF, runFragments, hidx]
    | some i =>
      have hi := indexOfByte_lt nl buf i hidx
      have hdrop : (buf.drop (i + 1)).length = buf.length - (i + 1) :=
        List.length_drop _ _
      rw [fragments_some buf i hidx]
      obtain ⟨f0, frs0, hfr⟩ :
          ∃ f0 frs0, fragments (buf.drop (i + 1)) = f0 :: frs0 := by
        cases hf : fragments (buf.drop (i + 1)) with
        | nil => exact absurd hf (fragments_ne_nil _)
        | cons a b => exact ⟨a, b, rfl⟩
      rw [hfr]
      unfold processLines
      by_cases hr : (proc s (buf.take (i + 1))).2
      · simp only [processLinesF, hidx, runFragments, hr, if_true]
        rw [← hfr, fragments_flatten (buf.drop (i + 1)).length _ le_rfl]
      · simp only [processLinesF, hidx, runFragments, hr, Bool.false_eq_true,
          if_false]
        rw [processLinesF_eq proc buf.length _ _ (by omega), ← hfr]
        exact ih _ _ (by omega)

lemma processLines_matched_decomp {σ : Type} (proc : σ → List Char → σ × Bool) :
    ∀ (n : Nat) (s : σ) (buf : List Char) (s2 : σ) (leftover : List Char),
      buf.length ≤ n →
      processLines proc s buf = .matched s2 leftover →
      ∃ pre, buf = pre ++ leftover := by
  intro n
  induction n with
  | zero =>
    intro s buf s2 leftover hn h
    have hbuf : buf = [] := List.length_eq_zero.mp (Nat.le_zero.mp hn)
    subst hbuf
    simp only [processLines, processLinesF, indexOfByte] at h
    by_cases hr : (proc s []).2
    · simp only [hr, if_true, LinesResult.matched.injEq] at h
      exact ⟨[], by rw [← h.2]; rfl⟩
    · simp [hr] at h
  | succ n ih =>
    intro s buf s2 leftover hn h
    cases hidx : indexOfByte nl buf with
    | none =>
      simp only [processLines, processLinesF, hidx] at h
      by_cases hr : (proc s buf).2
      · simp only [hr, if_true, LinesResult.matched.injEq] at h
        exact ⟨[], by rw [← h.2]; simp⟩
      · simp [hr] at h
    | some i =>
      have hi := indexOfByte_lt nl buf i hidx
      have hdrop : (buf.drop (i + 1)).length = buf.length - (i + 1) :=
        List.length_drop _ _
      simp only [processLines, processLinesF, hidx] at h
      by_cases hr : (proc s (buf.take (i + 1))).2
      · simp only [hr, if_true, LinesResult.matched.injEq] at h
        refine ⟨buf.take (i + 1), ?_⟩
        rw [← h.2, List.take_append_drop]
      · simp only [hr, Bool.false_eq_true, if_false] at h
        rw [processLinesF_eq proc buf.length _ _ (by omega)] at h
        obtain ⟨pre, hpre⟩ := ih _ _ _ _ (by omega) h
        refine ⟨buf.take (i + 1) ++ pre, ?_⟩
        rw [List.append_assoc, ← hpre]
        exact (List.take_append_drop _ _).symm

lemma consoleProcessRun_cons_matched {σ : Type}
    (proc : σ → List Char → σ × Bool) (s : σ) (buf : List Char)
    (sh : PumpShared) (it : PumpIter) (rest : List PumpIter) (s2 : σ)
    (leftover : List Char)
    (h1 : (applyIter sh it).consoleDataArrived = true)
    (h2 : processLines proc s (buf ++ (applyIter sh it).consoleData)
      = .matched s2 leftover) :
    consoleProcessRun proc s buf sh (it :: rest) =
      .success s2 ⟨leftover ++ it.during.flatten, true,
        (applyIter sh it).consoleDataEOF⟩ := by
  rw [processLines] at h2
  simp only [consoleProcessRun, h1, if_true, h2]
  simp [applyAppends_consoleData, applyAppends_eof]

lemma consoleProcessRun_cons_cont {σ : Type}
    (proc : σ → List Char → σ × Bool) (s : σ) (buf : List Char)
    (sh : PumpShared) (it : PumpIter) (rest : List PumpIter) (s2 : σ)
    (tail : List Char)
    (h1 : (applyIter sh it).consoleDataArrived = true)
    (h2 : processLines proc s (buf ++ (applyIter sh it).consoleData)
      = .cont s2 tail) :
    consoleProcessRun proc s buf sh (it :: rest) =
      consoleProcessRun proc s2 tail
        (applyAppends ⟨[], false, (applyIter sh it).consoleDataEOF⟩ it.during)
        rest := by
  rw [processLines] at h2
  simp only [consoleProcessRun, h1, if_true, h2]

lemma consoleProcessRun_cons_eof {σ : Type}
    (proc : σ → List Char → σ × Bool) (s : σ) (buf : List Char)
    (sh : PumpShared) (it : PumpIter) (rest : List PumpIter)
    (h1 : (applyIter sh it).consoleDataArrived = false)
    (h2 : (applyIter sh it).consoleDataEOF = true) :
    consoleProcessRun proc s buf sh (it :: rest) =
      .eofErr s (applyAppends ⟨[], false, true⟩ it.during) := by
  simp only [consoleProcessRun, h1, h2, Bool.false_eq_true, if_false, if_true]

lemma consoleProcessRun_cons_sleep {σ : Type}
    (proc : σ → List Char → σ × Bool) (s : σ) (buf : List Char)
    (sh : PumpShared) (it : PumpIter) (rest : List PumpIter)
    (h1 : (applyIter sh it).consoleDataArrived = false)
    (h2 : (applyIter sh it).consoleDataEOF = false) :
    consoleProcessRun proc s buf sh (it :: rest) =
      consoleProcessRun proc s (buf ++ (applyIter sh it).consoleData)
        (applyAppends ⟨[], false, false⟩ it.during) rest := by
  simp only [consoleProcessRun, h1, h2, Bool.false_eq_true, if_false]

lemma consolePumpRun_terminated :
    ∀ (evs : List ReadEvent) (carry : List Char) (sh sh' : PumpShared),
      consolePumpRun carry sh evs = .terminated sh' →
      (firstReadErr evs = some .eofE → sh'.consoleDataEOF = true) ∧
      (firstReadErr evs = some .otherE →
        sh'.consoleDataEOF = sh.consoleDataEOF) := by
  intro evs
  induction evs with
  | nil =>
    intro carry sh sh' h
    simp [consolePumpRun] at h
  | cons ev rest ih =>
    intro carry sh sh' h
    obtain ⟨bytes, err⟩ := ev
    cases err with
    | none =>
      simp only [consolePumpRun, firstReadErr] at h ⊢
      by_cases hb : bytes.isEmpty
      · rw [if_pos hb] at h
        exact ih carry sh sh' h
      · rw [if_neg hb] at h
        have := ih _ _ _ h
        simpa using this
    | some e =>
      cases e with
      | eofE =>
        simp only [consolePumpRun, firstReadErr] at h ⊢
        constructor
        · intro _
          by_cases hb : bytes.isEmpty
          · rw [if_pos hb] at h
            cases h
            rfl
          · rw [if_neg hb] at h
            cases h
            rfl
        · intro hcontra
          simp at hcontra
      | otherE =>
        simp only [consolePumpRun, firstReadErr] at h ⊢
        constructor
        · intro hcontra
          simp at hcontra
        · intro _
          by_cases hb : bytes.isEmpty
          · rw [if_pos hb] at h
            cases h
            rfl
          · rw [if_neg hb] at h
            cases h
            rfl

/-! ## Claim theorems -/

/-- C7: `Kill` writes exactly the one-line directive `"quit\n"` to the
monitor and `Shutdown` exactly `"system_powerdown\n"`; a monitor send
failure only adds a log entry; past the monitor phase both traces are the
shared `wait` finalization, whose non-log effects are, in order: block on
process exit, cancel the deadline context, close both connections and both
listeners, remove the temporary directory. -/
theorem c7_terminate_traces :
    ∀ (monErr exitErr removeErr : Bool),
      (killTrace monErr exitErr removeErr).filter isMonitorWrite
        = [.monitorWrite "quit\n"] ∧
      (shutdownTrace monErr exitErr removeErr).filter isMonitorWrite
        = [.monitorWrite "system_powerdown\n"] ∧
      (killTrace monErr exitErr removeErr).drop (if monErr then 2 else 1)
        = waitTrace exitErr removeErr ∧
      (shutdownTrace monErr exitErr removeErr).drop (if monErr then 2 else 1)
        = waitTrace exitErr removeErr ∧
      ((killTrace monErr exitErr removeErr).filter isLogError).length
        = (if monErr then 1 else 0) + (if exitErr then 1 else 0)
          + (if removeErr then 1 else 0) ∧
      (waitTrace exitErr removeErr).filter (fun e => !isLogError e)
        = [.waitForExit, .cancelContext, .closeConsole, .closeConsoleListener,
            .closeMonitor, .closeMonitorListener, .removeTempDir] := by
  intro m e r
  cases m <;> cases e <;> cases r <;>
    exact ⟨rfl, rfl, rfl, rfl, rfl, rfl⟩

/-- C10: launching with a non-empty `Append` list and an empty `Kernel`
path fails during argument validation, before any spawn — the plan is the
error return, not a spawn. -/
theorem c10_append_without_kernel_fails (tempDir : String)
    (opts : QemuOptions) (hk : opts.Kernel = "") (ha : opts.Append ≠ []) :
    NewQemuPlan tempDir opts =
      .failure "opts.Append only allowed with opts.Kernel option" := by
  unfold NewQemuPlan
  rw [hk]
  simp [ha]

/-- Witness for C10 at a concrete options value. -/
theorem c10_append_without_kernel_fails_witness :
    (⟨"", .OS_LINUX, [], false, 0, "", "", [], ["root=/dev/sda"], ""⟩
      : QemuOptions).Kernel = "" ∧
    (⟨"", .OS_LINUX, [], false, 0, "", "", [], ["root=/dev/sda"], ""⟩
      : QemuOptions).Append ≠ [] ∧
    NewQemuPlan "/tmp/vmtest0"
      ⟨"", .OS_LINUX, [], false, 0, "", "", [], ["root=/dev/sda"], ""⟩ =
      .failure "opts.Append only allowed with opts.Kernel option" :=
  ⟨rfl, by decide,
    c10_append_without_kernel_fails "/tmp/vmtest0" _ rfl (by decide)⟩

/-- C5: with the stream delivering `"A"` and later `"B\n"`, a literal wait
for `"AB"` that starts before either chunk (first poll sees nothing)
succeeds once both are there and consumes them; afterwards neither a wait
for `"A"` nor one for `"B"` sees those bytes again — both fail with
end-of-stream once the stream ends with no further data. -/
theorem c5_split_chunks_no_duplication :
    consoleExpectRun "AB".data ⟨[], false, false⟩
      [⟨[], false, []⟩, ⟨["A".data], false, []⟩, ⟨["B\n".data], false, []⟩] =
      .success () ⟨[], true, false⟩ ∧
    consoleExpectRun "A".data ⟨[], true, false⟩
      [⟨[], false, []⟩, ⟨[], true, []⟩] = .eofErr () ⟨[], false, true⟩ ∧
    consoleExpectRun "B".data ⟨[], true, false⟩
      [⟨[], false, []⟩, ⟨[], true, []⟩] = .eofErr () ⟨[], false, true⟩ :=
  ⟨rfl, rfl, rfl⟩

/-- C3: a matcher drain that finds the arrived flag clear (no new data, so
no candidate fragment is examined) and the ended flag set returns the
end-of-stream failure at once instead of polling again. -/
theorem c3_eof_returns (σ : Type) (proc : σ → List Char → σ × Bool) (s : σ)
    (buf : List Char) (sh : PumpShared) (it : PumpIter)
    (rest : List PumpIter) (hb : it.before = [])
    (ha : sh.consoleDataArrived = false)
    (he : sh.consoleDataEOF = true ∨ it.eofB = true) :
    consoleProcessRun proc s buf sh (it :: rest) =
      .eofErr s (applyAppends ⟨[], false, true⟩ it.during) := by
  have h1 : (applyIter sh it).consoleDataArrived = false := by
    rw [applyIter_arrived, hb, ha]
    rfl
  have h2 : (applyIter sh it).consoleDataEOF = true := by
    rw [applyIter_eof]
    rcases he with h | h
    · rw [h]; rfl
    · rw [h]; simp
  exact consoleProcessRun_cons_eof proc s buf sh it rest h1 h2

/-- Witness for C3 at a concrete parked literal wait. -/
theorem c3_eof_returns_witness :
    (⟨[], false, true⟩ : PumpShared).consoleDataArrived = false ∧
    consoleProcessRun (consoleExpectProc "x".data) () [] ⟨[], false, true⟩
      [⟨[], false, []⟩] = .eofErr () (applyAppends ⟨[], false, true⟩ []) :=
  ⟨rfl, c3_eof_returns Unit (consoleExpectProc "x".data) () [] ⟨[], false, true⟩
    ⟨[], false, []⟩ [] rfl rfl (Or.inl rfl)⟩

/-- C2 counterexample: a pump terminated by a non-end-of-file read error
exits with the ended flag still clear, and a parked matcher keeps polling
(three successive empty polls shown) instead of observing end-of-stream. -/
theorem c2_counterexample :
    consolePumpRun [] ⟨[], false, false⟩ [⟨[], some .otherE⟩] =
      .terminated ⟨[], false, false⟩ ∧
    (⟨[], false, false⟩ : PumpShared).consoleDataEOF = false ∧
    consoleProcessRun (consoleExpectProc "x".data) () [] ⟨[], false, false⟩
      [⟨[], false, []⟩, ⟨[], false, []⟩, ⟨[], false, []⟩] =
      .outOfSched () [] ⟨[], false, false⟩ :=
  ⟨rfl, rfl, rfl⟩

/-- C2 (amended): when the pump loop terminates, the ended flag has been
set exactly if the terminating read returned end-of-file; termination on
any other read error leaves the flag as it was before the run. -/
theorem c2_pump_eof_flag (evs : List ReadEvent) (carry : List Char)
    (sh sh' : PumpShared)
    (h : consolePumpRun carry sh evs = .terminated sh') :
    (firstReadErr evs = some .eofE → sh'.consoleDataEOF = true) ∧
    (firstReadErr evs = some .otherE →
      sh'.consoleDataEOF = sh.consoleDataEOF) :=
  consolePumpRun_terminated evs carry sh sh' h

/-- Witness for C2 (amended) on a run ending in an end-of-file read. -/
theorem c2_pump_eof_flag_witness :
    consolePumpRun [] ⟨[], false, false⟩ [⟨[], some .eofE⟩] =
      .terminated ⟨[], false, true⟩ ∧
    (⟨[], false, true⟩ : PumpShared).consoleDataEOF = true :=
  ⟨rfl, (c2_pump_eof_flag [⟨[], some .eofE⟩] [] ⟨[], false, false⟩
    ⟨[], false, true⟩ rfl).1 rfl⟩

/-- C8: on a chunk without the escape-introducer byte the pump's filter is
the identity — the bytes appended to the line buffer are exactly the bytes
read, in order, and nothing is carried over. -/
theorem c8_filter_identity_without_esc (chunk : List Char) (sh : PumpShared)
    (rest : List ReadEvent) (hne : chunk ≠ [])
    (hesc : containsB chunk [esc] = false) :
    pumpIteration [] chunk = (chunk, []) ∧
    consolePumpRun [] sh (⟨chunk, none⟩ :: rest) =
      consolePumpRun [] { sh with consoleData := sh.consoleData ++ chunk,
                                  consoleDataArrived := true } rest := by
  have hp : pumpIteration [] chunk = (chunk, []) := by
    unfold pumpIteration
    rw [List.nil_append]
    simp [hesc]
  refine ⟨hp, ?_⟩
  have hb : chunk.isEmpty = false := by
    cases chunk with
    | nil => exact absurd rfl hne
    | cons a b => rfl
  simp only [consolePumpRun, hb, hp, Bool.false_eq_true, if_false]

/-- Witness for C8 on a concrete escape-free chunk. -/
theorem c8_filter_identity_without_esc_witness :
    ("boot ok\n".data ≠ []) ∧
    containsB "boot ok\n".data [esc] = false ∧
    (pumpIteration [] "boot ok\n".data = ("boot ok\n".data, []) ∧
      consolePumpRun [] ⟨[], false, false⟩ [⟨"boot ok\n".data, none⟩] =
        consolePumpRun [] ⟨"boot ok\n".data, true, false⟩ []) :=
  ⟨by decide, by decide,
    c8_filter_identity_without_esc "boot ok\n".data ⟨[], false, false⟩ []
      (by decide) (by decide)⟩

/-- C6: when the filtered chunk still holds an escape introducer within
`asciiSeqMaxLength` bytes of its end (the last introducer, at offset `i`),
the pump delivers only the bytes before the introducer and carries the
introducer-to-end tail into the next read iteration, where `pumpIteration`
prepends it to the bytes read next. -/
theorem c6_incomplete_sequence_carry (carry chunk : List Char)
    (sh : PumpShared) (rest : List ReadEvent) (i : Nat) (hne : chunk ≠ [])
    (hesc : containsB (carry ++ chunk) [esc] = true)
    (hlast : lastIndexOfByte esc (ansiReplaceAll (carry ++ chunk)) = some i)
    (hwin : (ansiReplaceAll (carry ++ chunk)).length - i < asciiSeqMaxLength) :
    pumpIteration carry chunk =
      ((ansiReplaceAll (carry ++ chunk)).take i,
        (ansiReplaceAll (carry ++ chunk)).drop i) ∧
    consolePumpRun carry sh (⟨chunk, none⟩ :: rest) =
      consolePumpRun ((ansiReplaceAll (carry ++ chunk)).drop i)
        { sh with
            consoleData :=
              sh.consoleData ++ (ansiReplaceAll (carry ++ chunk)).take i,
            consoleDataArrived := true } rest := by
  have hp : pumpIteration carry chunk =
      ((ansiReplaceAll (carry ++ chunk)).take i,
        (ansiReplaceAll (carry ++ chunk)).drop i) := by
    unfold pumpIteration
    simp [hesc, hlast, hwin]
  refine ⟨hp, ?_⟩
  have hb : chunk.isEmpty = false := by
    cases chunk with
    | nil => exact absurd rfl hne
    | cons a b => rfl
  simp only [consolePumpRun, hb, hp, Bool.false_eq_true, if_false]

/-- Witness for C6: the chunk `"hello" ESC "[2"` ends in an incomplete
clear-screen sequence; `"hello"` is delivered and `ESC "[2"` carried. -/
theorem c6_incomplete_sequence_carry_witness :
    containsB ([] ++ "hello\x1b[2".data) [esc] = true ∧
    lastIndexOfByte esc (ansiReplaceAll ([] ++ "hello\x1b[2".data)) = some 5 ∧
    (ansiReplaceAll ([] ++ "hello\x1b[2".data)).length - 5
      < asciiSeqMaxLength ∧
    (pumpIteration [] "hello\x1b[2".data = ("hello".data, "\x1b[2".data) ∧
      consolePumpRun [] ⟨[], false, false⟩ [⟨"hello\x1b[2".data, none⟩] =
        consolePumpRun "\x1b[2".data ⟨"hello".data, true, false⟩ []) := by
  refine ⟨by decide, by decide, by decide, ?_⟩
  exact c6_incomplete_sequence_carry [] "hello\x1b[2".data ⟨[], false, false⟩
    [] 5 (by decide) (by decide) (by decide) (by decide)

/-- C9: a match on the terminator-less trailing fragment does not consume
its bytes — the whole fragment is re-inserted at the front of the line
buffer (ahead of anything the pump appended meanwhile), so the next
matcher call drains those very bytes again. -/
theorem c9_unterminated_match_reinserted (σ : Type)
    (proc : σ → List Char → σ × Bool) (s s2 : σ) (buf : List Char)
    (sh : PumpShared) (it : PumpIter) (rest : List PumpIter)
    (hnl : indexOfByte nl (buf ++ (applyIter sh it).consoleData) = none)
    (harr : (applyIter sh it).consoleDataArrived = true)
    (hmatch : proc s (buf ++ (applyIter sh it).consoleData) = (s2, true)) :
    consoleProcessRun proc s buf sh (it :: rest) =
      .success s2 ⟨(buf ++ (applyIter sh it).consoleData) ++ it.during.flatten,
        true, (applyIter sh it).consoleDataEOF⟩ ∧
    ∀ it2 : PumpIter,
      (applyIter ⟨(buf ++ (applyIter sh it).consoleData) ++ it.during.flatten,
        true, (applyIter sh it).consoleDataEOF⟩ it2).consoleData =
      (buf ++ (applyIter sh it).consoleData) ++
        (it.during.flatten ++ it2.before.flatten) := by
  have h2 : processLines proc s (buf ++ (applyIter sh it).consoleData) =
      .matched s2 (buf ++ (applyIter sh it).consoleData) := by
    unfold processLines
    simp [processLinesF, hnl, hmatch]
  refine ⟨consoleProcessRun_cons_matched proc s buf sh it rest s2 _ harr h2,
    ?_⟩
  intro it2
  rw [applyIter_consoleData]
  simp [List.append_assoc]

/-- Witness for C9: a prompt without a newline matches and is observed
again by the following call. -/
theorem c9_unterminated_match_reinserted_witness :
    (consoleProcessRun (consoleExpectProc "Password".data) () []
        ⟨[], false, false⟩ [⟨["Password: ".data], false, []⟩] =
      .success () ⟨"Password: ".data, true, false⟩) ∧
    (∀ it2 : PumpIter,
      (applyIter ⟨"Password: ".data, true, false⟩ it2).consoleData =
        "Password: ".data ++ ([] ++ it2.before.flatten)) := by
  have h := c9_unterminated_match_reinserted Unit
    (consoleExpectProc "Password".data) () () [] ⟨[], false, false⟩
    ⟨["Password: ".data], false, []⟩ [] (by decide) (by rfl) (by rfl)
  exact h

/-- C4: candidate fragments are evaluated strictly in byte-production
order (the index-based loop equals the in-order walk over the fragment
list); on a match the unexamined trailing bytes are prepended back in
front of whatever the pump appended meanwhile, the drained bytes decompose
as examined-prefix plus leftover (no byte reordered or lost), and the next
call drains the leftover first, then the newer bytes, in original order. -/
theorem c4_order_and_rebuffering (σ : Type)
    (proc : σ → List Char → σ × Bool) :
    (∀ (s : σ) (buf : List Char),
      processLines proc s buf = runFragments proc s (fragments buf)) ∧
    (∀ (s : σ) (buf : List Char) (sh : PumpShared) (it : PumpIter)
      (rest : List PumpIter) (s2 : σ) (leftover : List Char),
      (applyIter sh it).consoleDataArrived = true →
      processLines proc s (buf ++ (applyIter sh it).consoleData)
        = .matched s2 leftover →
      consoleProcessRun proc s buf sh (it :: rest) =
        .success s2 ⟨leftover ++ it.during.flatten, true,
          (applyIter sh it).consoleDataEOF⟩ ∧
      (∃ consumed,
        buf ++ (applyIter sh it).consoleData = consumed ++ leftover) ∧
      ∀ it2 : PumpIter,
        (applyIter ⟨leftover ++ it.during.flatten, true,
          (applyIter sh it).consoleDataEOF⟩ it2).consoleData =
        leftover ++ (it.during.flatten ++ it2.before.flatten)) := by
  constructor
  · intro s buf
    exact processLines_eq_runFragments proc buf.length s buf le_rfl
  · intro s buf sh it rest s2 leftover harr hm
    refine ⟨consoleProcessRun_cons_matched proc s buf sh it rest s2 leftover
      harr hm, ?_, ?_⟩
    · exact processLines_matched_decomp proc
        (buf ++ (applyIter sh it).consoleData).length s
        (buf ++ (applyIter sh it).consoleData) s2 leftover le_rfl hm
    · intro it2
      rw [applyIter_consoleData]
      simp [List.append_assoc]

/-- Witness for C4: a four-fragment buffer whose second line matches; the
remainder `"L3\nTAIL"` is re-buffered ahead of the concurrently pumped
`"Z"`. -/
theorem c4_order_and_rebuffering_witness :
    (consoleProcessRun (consoleExpectProc "TARGET".data) () []
        ⟨[], false, false⟩
        [⟨["L1\nTARGET\nL3\nTAIL".data], false, ["Z".data]⟩] =
      .success () ⟨"L3\nTAILZ".data, true, false⟩) ∧
    (∃ consumed, [] ++ (applyIter ⟨[], false, false⟩
        ⟨["L1\nTARGET\nL3\nTAIL".data], false, ["Z".data]⟩).consoleData =
      consumed ++ "L3\nTAIL".data) ∧
    (∀ it2 : PumpIter,
      (applyIter ⟨"L3\nTAILZ".data, true, false⟩ it2).consoleData =
        "L3\nTAIL".data ++ ("Z".data ++ it2.before.flatten)) := by
  have h := (c4_order_and_rebuffering Unit (consoleExpectProc "TARGET".data)).2
    () [] ⟨[], false, false⟩
    ⟨["L1\nTARGET\nL3\nTAIL".data], false, ["Z".data]⟩ [] ()
    "L3\nTAIL".data (by rfl) (by rfl)
  exact h

/-- C1 counterexample: for the two-group pattern `a(\d+)b(\d+)` on the
line `"a1b2\n"` the pattern wait returns only `["1"]` — the first capture
group of the match — while the list of every captured group in order of
appearance is `["1", "2"]`. -/
theorem c1_counterexample :
    consoleExpectREResult (consoleExpectRERun (reFindAll twoGroupRe)
      ⟨[], false, false⟩ [⟨["a1b2\n".data], false, []⟩]) = some [['1']] ∧
    ((reFindAll twoGroupRe "a1b2\n".data).map
      (fun sm => sm.drop 1)).flatten = [['1'], ['2']] ∧
    ([['1']] : List (List Char)) ≠ [['1'], ['2']] :=
  ⟨rfl, rfl, by decide⟩

/-- C1 (amended): for every matching-library result on a newline-terminated
line, the pattern wait returns, for every match found within the matching
fragment and in order of appearance, exactly the first captured group of
that match. -/
theorem c1_first_group_per_match
    (fas : List Char → List (List (List Char))) (c : List Char)
    (rest : List PumpIter) (hnl : indexOfByte nl c = none)
    (hm : fas (c ++ [nl]) ≠ []) :
    consoleExpectREResult (consoleExpectRERun fas ⟨[], false, false⟩
      (⟨[c ++ [nl]], false, []⟩ :: rest)) =
      some ((fas (c ++ [nl])).map (fun sm => sm.getD 1 [])) := by
  have harr : (applyIter ⟨[], false, false⟩
      ⟨[c ++ [nl]], false, []⟩).consoleDataArrived = true := by
    rw [applyIter_arrived]
    rfl
  have hdata : (applyIter ⟨[], false, false⟩
      ⟨[c ++ [nl]], false, []⟩).consoleData = c ++ [nl] := by
    rw [applyIter_consoleData]
    simp
  have hproc : consoleExpectREProc fas [] (c ++ [nl]) =
      ((fas (c ++ [nl])).map (fun sm => sm.getD 1 []), true) := by
    obtain ⟨m0, ms, hm'⟩ : ∃ m0 ms, fas (c ++ [nl]) = m0 :: ms := by
      cases hf : fas (c ++ [nl]) with
      | nil => exact absurd hf hm
      | cons a b => exact ⟨a, b, rfl⟩
    unfold consoleExpectREProc
    rw [hm']
    simp
  have h2 : processLines (consoleExpectREProc fas) []
      ([] ++ (applyIter ⟨[], false, false⟩
        ⟨[c ++ [nl]], false, []⟩).consoleData) =
      .matched ((fas (c ++ [nl])).map (fun sm => sm.getD 1 [])) [] := by
    rw [hdata, List.nil_append]
    unfold processLines
    have hidx := indexOfByte_append_nl c hnl
    have hlen : (c ++ [nl]).length = c.length + 1 := by simp
    have htake : (c ++ [nl]).take (c.length + 1) = c ++ [nl] := by
      rw [← hlen, List.take_length]
    have hdropn : (c ++ [nl]).drop (c.length + 1) = [] := by
      rw [← hlen, List.drop_length]
    simp only [processLinesF, hidx, htake, hdropn, hproc]
    simp
  unfold consoleExpectRERun
  rw [consoleProcessRun_cons_matched (consoleExpectREProc fas) [] []
    ⟨[], false, false⟩ ⟨[c ++ [nl]], false, []⟩ rest _ [] harr h2]
  rfl

/-- Witness for C1 (amended): the spec's worked example — the pattern
`exit_code=(\d+)` against the line `"exit_code=42\n"` yields exactly
`["42"]`. -/
theorem c1_first_group_per_match_witness :
    indexOfByte nl "exit_code=42".data = none ∧
    reFindAll exitCodeRe ("exit_code=42".data ++ [nl]) ≠ [] ∧
    consoleExpectREResult (consoleExpectRERun (reFindAll exitCodeRe)
      ⟨[], false, false⟩ [⟨["exit_code=42".data ++ [nl]], false, []⟩]) =
      some [['4', '2']] := by
  refine ⟨by decide, by decide, ?_⟩
  rw [c1_first_group_per_match (reFindAll exitCodeRe) "exit_code=42".data []
    (by decide) (by decide)]
  rfl

end Vmtest
